import Mathlib

/-!
Verification of the markup serialization engine of the hiccup repository
(src/src/lib.rs). The engine is the declarative macro named hiccup: it
receives a mutable string sink and a sequence of markup descriptions and
appends rendered text to the sink. We embed the description trees as an
inductive type of nodes and the five macro arms as a recursive function
over node sequences; a sequence that matches no macro arm (a macro
expansion failure in the source, hence a compile-time rejection) is
modelled as the result none.
-/

/--
A node of the description tree. The macro grammar offers three element
shapes (tag with attribute block and children block, tag with attribute
block only, tag with children block only) plus bare literals, so an
element carries optional attribute and children blocks; an attribute
block is an ordered list of key and value strings, already in the
textual form that stringify produces in the source.
-/
inductive Node where
  | elem (tag : String) (attrs : Option (List (String × String))) (children : Option (List Node))
  | lit (s : String)
deriving Repr

/--
Rendering of an attribute block: the macro writes, for each pair in
order, a single space, the key, an equals sign and then the value text
(lib.rs lines 56 to 59).
-/
def attrsStr (attrs : List (String × String)) : String :=
  String.join (attrs.map (fun kv => " " ++ kv.1 ++ "=" ++ kv.2))

/--
The serialization engine, one case per macro arm of lib.rs in source
order: an empty sequence writes nothing (line 45); a sole remaining
token tree that is a literal writes its textual form (lines 47 to 50);
a tag with attribute and children blocks writes the open tag with its
attributes, recurses into the children, writes the close tag and
continues with the rest (lines 52 to 65); a tag with an attribute block
and no children block writes a self-closing tag and continues (lines 67
to 77); a tag with only a children block writes the open tag, recurses,
writes the close tag and continues (lines 79 to 86). Any other shape
(a literal followed by further nodes, or a bare tag with neither block)
matches no arm and the macro invocation is rejected, modelled as none.
The sink string is threaded through as an accumulator, mirroring the
mutable string the macro writes into.
-/
def hiccup (w : String) : List Node → Option String
  | [] => some w
  | [Node.lit s] => some (w ++ s)
  | Node.elem tag (some attrs) (some inner) :: rest => do
      let w1 ← hiccup (w ++ "<" ++ tag ++ attrsStr attrs ++ ">") inner
      hiccup (w1 ++ "</" ++ tag ++ ">") rest
  | Node.elem tag (some attrs) none :: rest =>
      hiccup (w ++ "<" ++ tag ++ attrsStr attrs ++ "/>") rest
  | Node.elem tag none (some inner) :: rest => do
      let w1 ← hiccup (w ++ "<" ++ tag ++ ">") inner
      hiccup (w1 ++ "</" ++ tag ++ ">") rest
  | _ => none

/--
The individual tags and text pieces the engine emits, in emission
order: an open tag with its attribute block, a close tag, a
self-closing tag with its attribute block, or literal text.
-/
inductive Tok where
  | tOpen (tag : String) (attrs : List (String × String))
  | tClose (tag : String)
  | tSelf (tag : String) (attrs : List (String × String))
  | tText (s : String)
deriving Repr, DecidableEq

/-- The exact text of one emitted tag or text piece. -/
def tokStr : Tok → String
  | Tok.tOpen tag attrs => "<" ++ tag ++ attrsStr attrs ++ ">"
  | Tok.tClose tag => "</" ++ tag ++ ">"
  | Tok.tSelf tag attrs => "<" ++ tag ++ attrsStr attrs ++ "/>"
  | Tok.tText s => s

/-- Concatenation of the texts of a list of emitted pieces. -/
def joinToks (toks : List Tok) : String :=
  String.join (toks.map tokStr)

/--
The engine at the granularity of emitted tags: same case analysis as
hiccup, but collecting the list of emitted pieces instead of the
concatenated text. The write calls of each macro arm appear as the
corresponding tokens in emission order.
-/
def renderToks : List Node → Option (List Tok)
  | [] => some []
  | [Node.lit s] => some [Tok.tText s]
  | Node.elem tag (some attrs) (some inner) :: rest => do
      let ti ← renderToks inner
      let tr ← renderToks rest
      some (Tok.tOpen tag attrs :: (ti ++ Tok.tClose tag :: tr))
  | Node.elem tag (some attrs) none :: rest => do
      let tr ← renderToks rest
      some (Tok.tSelf tag attrs :: tr)
  | Node.elem tag none (some inner) :: rest => do
      let ti ← renderToks inner
      let tr ← renderToks rest
      some (Tok.tOpen tag [] :: (ti ++ Tok.tClose tag :: tr))
  | _ => none

/--
Balanced-parenthesis-style scan over the emitted pieces: open tags push
their name, close tags must match the top of the stack, self-closing
tags and text are neutral. The scan fails on a mismatched or
extra close tag.
-/
def scan : List Tok → List String → Option (List String)
  | [], st => some st
  | Tok.tOpen tag _ :: rest, st => scan rest (tag :: st)
  | Tok.tClose _ :: _, [] => none
  | Tok.tClose tag :: rest, t :: st => if tag = t then scan rest st else none
  | Tok.tSelf _ _ :: rest, st => scan rest st
  | Tok.tText _ :: rest, st => scan rest st

/--
The node sequences the macro grammar accepts: every element carries at
least one of its two blocks, children sequences are accepted
recursively, and a literal may stand only as the sole remaining node of
a sequence. This is exactly the domain on which some macro arm matches
at every recursive step.
-/
def wfSeq : List Node → Bool
  | [] => true
  | [Node.lit _] => true
  | Node.elem _ (some _) (some inner) :: rest => wfSeq inner && wfSeq rest
  | Node.elem _ (some _) none :: rest => wfSeq rest
  | Node.elem _ none (some inner) :: rest => wfSeq inner && wfSeq rest
  | _ => false

theorem strJoin_foldl (l : List String) : ∀ a : String, l.foldl (· ++ ·) a = a ++ l.foldl (· ++ ·) "" := by
  induction l with
  | nil => intro a; simp [String.append_empty]
  | cons x xs ih =>
      intro a
      simp only [List.foldl_cons]
      rw [ih (a ++ x), ih ("" ++ x), String.empty_append, String.append_assoc]

theorem strJoin_cons (s : String) (l : List String) :
    String.join (s :: l) = s ++ String.join l := by
  simp only [String.join, List.foldl_cons]
  rw [strJoin_foldl l ("" ++ s), String.empty_append]

theorem strJoin_append (a b : List String) :
    String.join (a ++ b) = String.join a ++ String.join b := by
  induction a with
  | nil => simp [String.join, String.empty_append]
  | cons x xs ih => rw [List.cons_append, strJoin_cons, strJoin_cons, ih, String.append_assoc]

theorem joinToks_cons (t : Tok) (ts : List Tok) : joinToks (t :: ts) = tokStr t ++ joinToks ts := by
  simp [joinToks, strJoin_cons]

theorem joinToks_append (a b : List Tok) : joinToks (a ++ b) = joinToks a ++ joinToks b := by
  simp [joinToks, strJoin_append]

theorem hiccup_eq_toks (nodes : List Node) :
    ∀ w, hiccup w nodes = (renderToks nodes).map (fun ts => w ++ joinToks ts) := by
  induction nodes using renderToks.induct
  case case1 =>
    intro w
    simp [hiccup, renderToks, joinToks, String.join, String.append_empty]
  case case2 =>
    intro w
    simp [hiccup, renderToks, joinToks, tokStr, String.join, strJoin_cons, String.append_empty,
      String.append_assoc]
  case case3 tag attrs inner rest ih2 ih1 =>
    intro w
    simp only [hiccup, renderToks, ih2]
    cases h1 : renderToks inner with
    | none => simp
    | some ti =>
      simp only [Option.map_some', bind, Option.bind]
      rw [ih1]
      cases h2 : renderToks rest with
      | none => simp
      | some tr =>
        simp [joinToks_cons, joinToks_append, tokStr, String.append_assoc]
  case case4 tag attrs rest ih =>
    intro w
    simp only [hiccup, renderToks, ih]
    cases h : renderToks rest with
    | none => simp
    | some tr =>
      simp [joinToks_cons, tokStr, String.append_assoc]
  case case5 tag inner rest ih2 ih1 =>
    intro w
    simp only [hiccup, renderToks, ih2]
    cases h1 : renderToks inner with
    | none => simp
    | some ti =>
      simp only [Option.map_some', bind, Option.bind]
      rw [ih1]
      cases h2 : renderToks rest with
      | none => simp
      | some tr =>
        simp [joinToks_cons, joinToks_append, tokStr, attrsStr, String.join,
          String.append_empty, String.append_assoc]
  case case6 x h1 h2 h3 h4 h5 =>
    intro w
    match x with
    | [] => exact absurd rfl h1
    | [Node.lit s] => exact absurd rfl (h2 s)
    | Node.lit s :: y :: ys => simp [hiccup, renderToks]
    | Node.elem t (some as) (some ch) :: rest => exact absurd rfl (h3 t as ch rest)
    | Node.elem t (some as) none :: rest => exact absurd rfl (h4 t as rest)
    | Node.elem t none (some ch) :: rest => exact absurd rfl (h5 t ch rest)
    | Node.elem t none none :: rest => simp [hiccup, renderToks]

theorem scan_append (a b : List Tok) :
    ∀ st, scan (a ++ b) st = (scan a st).bind (fun st1 => scan b st1) := by
  induction a with
  | nil => intro st; simp [scan]
  | cons t ts ih =>
    intro st
    cases t with
    | tOpen tag attrs => simp [scan, ih]
    | tClose tag =>
      cases st with
      | nil => simp [scan]
      | cons s ss =>
        by_cases h : tag = s <;> simp [scan, h, ih]
    | tSelf tag attrs => simp [scan, ih]
    | tText s => simp [scan, ih]

theorem renderToks_scan (nodes : List Node) :
    ∀ toks, renderToks nodes = some toks → ∀ st, scan toks st = some st := by
  induction nodes using renderToks.induct
  case case1 =>
    intro toks h st
    simp only [renderToks, Option.some_inj] at h
    subst h
    simp [scan]
  case case2 s =>
    intro toks h st
    simp only [renderToks, Option.some_inj] at h
    subst h
    simp [scan]
  case case3 tag attrs inner rest ih2 ih1 =>
    intro toks h st
    simp only [renderToks, bind, Option.bind_eq_some, Option.some_inj] at h
    obtain ⟨ti, hti, tr, htr, hts⟩ := h
    subst hts
    simp only [scan, scan_append, ih2 ti hti (tag :: st), Option.some_bind]
    simp [scan, ih1 tr htr st]
  case case4 tag attrs rest ih =>
    intro toks h st
    simp only [renderToks, bind, Option.bind_eq_some, Option.some_inj] at h
    obtain ⟨tr, htr, hts⟩ := h
    subst hts
    simp [scan, ih tr htr st]
  case case5 tag inner rest ih2 ih1 =>
    intro toks h st
    simp only [renderToks, bind, Option.bind_eq_some, Option.some_inj] at h
    obtain ⟨ti, hti, tr, htr, hts⟩ := h
    subst hts
    simp only [scan, scan_append, ih2 ti hti (tag :: st), Option.some_bind]
    simp [scan, ih1 tr htr st]
  case case6 x h1 h2 h3 h4 h5 =>
    intro toks h st
    match x with
    | [] => exact absurd rfl h1
    | [Node.lit s] => exact absurd rfl (h2 s)
    | Node.lit s :: y :: ys => simp [renderToks] at h
    | Node.elem t (some as) (some ch) :: rest => exact absurd rfl (h3 t as ch rest)
    | Node.elem t (some as) none :: rest => exact absurd rfl (h4 t as rest)
    | Node.elem t none (some ch) :: rest => exact absurd rfl (h5 t ch rest)
    | Node.elem t none none :: rest => simp [renderToks] at h

theorem wfSeq_renderToks_isSome (nodes : List Node) :
    wfSeq nodes = true → (renderToks nodes).isSome := by
  induction nodes using renderToks.induct
  case case1 => intro h; simp [renderToks]
  case case2 s => intro h; simp [renderToks]
  case case3 tag attrs inner rest ih2 ih1 =>
    intro h
    simp only [wfSeq, Bool.and_eq_true] at h
    obtain ⟨ha, hb⟩ := h
    obtain ⟨ti, hti⟩ := Option.isSome_iff_exists.mp (ih2 ha)
    obtain ⟨tr, htr⟩ := Option.isSome_iff_exists.mp (ih1 hb)
    simp [renderToks, hti, htr]
  case case4 tag attrs rest ih =>
    intro h
    simp only [wfSeq] at h
    obtain ⟨tr, htr⟩ := Option.isSome_iff_exists.mp (ih h)
    simp [renderToks, htr]
  case case5 tag inner rest ih2 ih1 =>
    intro h
    simp only [wfSeq, Bool.and_eq_true] at h
    obtain ⟨ha, hb⟩ := h
    obtain ⟨ti, hti⟩ := Option.isSome_iff_exists.mp (ih2 ha)
    obtain ⟨tr, htr⟩ := Option.isSome_iff_exists.mp (ih1 hb)
    simp [renderToks, hti, htr]
  case case6 x h1 h2 h3 h4 h5 =>
    intro h
    match x with
    | [] => exact absurd rfl h1
    | [Node.lit s] => exact absurd rfl (h2 s)
    | Node.lit s :: y :: ys => simp [wfSeq] at h
    | Node.elem t (some as) (some ch) :: rest => exact absurd rfl (h3 t as ch rest)
    | Node.elem t (some as) none :: rest => exact absurd rfl (h4 t as rest)
    | Node.elem t none (some ch) :: rest => exact absurd rfl (h5 t ch rest)
    | Node.elem t none none :: rest => simp [wfSeq] at h

/--
Helper: rendering with any initial sink content equals rendering with an
empty sink, prefixed by that content.
-/
theorem hiccup_frame (nodes : List Node) (w : String) :
    hiccup w nodes = (hiccup "" nodes).map (fun out => w ++ out) := by
  rw [hiccup_eq_toks nodes w, hiccup_eq_toks nodes ""]
  cases renderToks nodes <;> simp [String.empty_append]

/--
C1: for every input sequence the engine renders at all, the output is
the concatenation of the emitted tags and text pieces, each element with
a children block contributes a matching open and close tag pair with the
close tag after all children (by construction of renderToks), and the
balanced-parenthesis-style scan of the whole output succeeds, regardless
of nesting depth.
-/
theorem hiccup_tag_balance (nodes : List Node) (s : String)
    (h : hiccup "" nodes = some s) :
    ∃ toks, renderToks nodes = some toks ∧ s = joinToks toks ∧ scan toks [] = some [] := by
  have hf := hiccup_eq_toks nodes ""
  rw [h] at hf
  cases ht : renderToks nodes with
  | none => rw [ht] at hf; simp at hf
  | some toks =>
    rw [ht] at hf
    simp only [Option.map_some', Option.some_inj] at hf
    exact ⟨toks, rfl, by rw [hf, String.empty_append], renderToks_scan nodes toks ht []⟩

/--
C1 witness: the nested html/head/title/body tree renders to a balanced
output.
-/
theorem hiccup_tag_balance_witness :
    ∃ toks,
      renderToks [Node.elem "html" none (some [Node.elem "head" none
        (some [Node.elem "title" none (some [Node.lit "T"])]),
        Node.elem "body" none (some [])])] = some toks ∧
      "<html><head><title>T</title></head><body></body></html>" = joinToks toks ∧
      scan toks [] = some [] :=
  hiccup_tag_balance _ _ (by simp [hiccup, attrsStr])

/--
C2: an element with attribute and children blocks renders byte-exactly
as an opening angle bracket, the tag name, for each attribute pair in
declaration order exactly one space, the key, an equals sign and the
value text verbatim, then the closing angle bracket, the recursively
rendered children, and the close tag.
-/
theorem hiccup_element_shape (tag : String) (attrs : List (String × String))
    (inner : List Node) (w c : String) (h : hiccup "" inner = some c) :
    hiccup w [Node.elem tag (some attrs) (some inner)] =
      some (w ++ "<" ++ tag ++
        String.join (attrs.map (fun kv => " " ++ kv.1 ++ "=" ++ kv.2)) ++ ">" ++
        c ++ "</" ++ tag ++ ">") := by
  have h2 := hiccup_frame inner (w ++ "<" ++ tag ++ attrsStr attrs ++ ">")
  rw [h] at h2
  simp only [hiccup, h2, Option.map_some', bind, Option.bind, Option.some_inj]
  simp [attrsStr, String.append_assoc]

/--
C2 witness: the h1 element with one attribute and a literal child.
-/
theorem hiccup_element_shape_witness :
    hiccup "" [Node.elem "h1" (some [("class", "\"big\"")]) (some [Node.lit "Hi"])] =
      some ("" ++ "<" ++ "h1" ++
        String.join ([("class", "\"big\"")].map (fun kv => " " ++ kv.1 ++ "=" ++ kv.2)) ++ ">" ++
        "Hi" ++ "</" ++ "h1" ++ ">") :=
  hiccup_element_shape "h1" [("class", "\"big\"")] [Node.lit "Hi"] "" "Hi" (by simp [hiccup])

/--
C3: an element without a children block renders as a single tag ending
in a slash and closing angle bracket, and the emitted pieces contain no
close tag for it; such an element necessarily carries an attribute
block, since the bare form matches no macro arm.
-/
theorem hiccup_self_closing (tag : String) (oattrs : Option (List (String × String)))
    (s : String) (h : hiccup "" [Node.elem tag oattrs none] = some s) :
    ∃ attrs, oattrs = some attrs ∧ s = "<" ++ tag ++ attrsStr attrs ++ "/>" ∧
      renderToks [Node.elem tag oattrs none] = some [Tok.tSelf tag attrs] := by
  cases oattrs with
  | none => simp [hiccup] at h
  | some attrs =>
    refine ⟨attrs, rfl, ?_, by simp [renderToks]⟩
    simp only [hiccup, Option.some_inj] at h
    rw [← h, String.empty_append]

/--
C3 witness: the meta element with one attribute and no children block.
-/
theorem hiccup_self_closing_witness :
    ∃ attrs, (some [("name", "\"author\"")] : Option (List (String × String))) = some attrs ∧
      "<meta name=\"author\"/>" = "<" ++ "meta" ++ attrsStr attrs ++ "/>" ∧
      renderToks [Node.elem "meta" (some [("name", "\"author\"")]) none] =
        some [Tok.tSelf "meta" attrs] :=
  hiccup_self_closing "meta" (some [("name", "\"author\"")]) _
    (by simp [hiccup, attrsStr, String.join])

/--
C4: for every element declared with any attribute list, in both the
with-children arm and the childless arm, the rendered attribute
substring is the in-order concatenation of one space, key, equals sign
and value rendering per declared pair, one rendering per occurrence of
a pair; the concatenation law for an arbitrary split of the list shows
that each occurrence is rendered independently of the others, so
repeated keys are neither merged nor deduplicated.
-/
theorem hiccup_attr_order (tag w : String) (attrs : List (String × String)) :
    (∀ (ch : List Node) (c : String), hiccup "" ch = some c →
      hiccup w [Node.elem tag (some attrs) (some ch)] =
        some (w ++ "<" ++ tag ++
          String.join (attrs.map (fun kv => " " ++ kv.1 ++ "=" ++ kv.2)) ++ ">" ++
          c ++ "</" ++ tag ++ ">")) ∧
    (hiccup w [Node.elem tag (some attrs) none] =
      some (w ++ "<" ++ tag ++
        String.join (attrs.map (fun kv => " " ++ kv.1 ++ "=" ++ kv.2)) ++ "/>")) ∧
    (∀ bs : List (String × String),
      String.join ((attrs ++ bs).map (fun kv => " " ++ kv.1 ++ "=" ++ kv.2)) =
        String.join (attrs.map (fun kv => " " ++ kv.1 ++ "=" ++ kv.2)) ++
          String.join (bs.map (fun kv => " " ++ kv.1 ++ "=" ++ kv.2))) := by
  refine ⟨fun ch c h => ?_, ?_, fun bs => ?_⟩
  · have h2 := hiccup_frame ch (w ++ "<" ++ tag ++ attrsStr attrs ++ ">")
    rw [h] at h2
    simp only [hiccup, h2, Option.map_some', bind, Option.bind, Option.some_inj]
    simp [attrsStr, String.append_assoc]
  · simp [hiccup, attrsStr, String.append_assoc]
  · simp [List.map_append, strJoin_append]

/--
C4 witness: an h1 element carrying the same attribute pair twice, with
a literal child: both occurrences are rendered, in order.
-/
theorem hiccup_attr_order_witness :
    hiccup "" [Node.elem "h1" (some [("class", "\"a\""), ("class", "\"a\"")])
        (some [Node.lit "Hi"])] =
      some ("" ++ "<" ++ "h1" ++
        String.join ([("class", "\"a\""), ("class", "\"a\"")].map
          (fun kv => " " ++ kv.1 ++ "=" ++ kv.2)) ++ ">" ++
        "Hi" ++ "</" ++ "h1" ++ ">") :=
  (hiccup_attr_order "h1" "" [("class", "\"a\""), ("class", "\"a\"")]).1
    [Node.lit "Hi"] "Hi" (by simp [hiccup])

/--
C5 counterexample: rendering the two-literal sequence fails (no macro
arm matches a literal followed by further nodes), while each literal
renders on its own, so rendering the pair is not the concatenation of
the individual renderings.
-/
theorem hiccup_seq_concat_counterexample :
    hiccup "" [Node.lit "a", Node.lit "b"] = none ∧
    hiccup "" [Node.lit "a"] = some "a" ∧ hiccup "" [Node.lit "b"] = some "b" ∧
    hiccup "" [Node.lit "a", Node.lit "b"] ≠ some ("a" ++ "b") :=
  ⟨by simp [hiccup], by simp [hiccup], by simp [hiccup], by simp [hiccup]⟩

/--
C5 amended: rendering the empty sequence appends nothing, and whenever
the head of a sequence is an Element, rendering the whole sequence
equals rendering that element and then the remaining nodes on the
resulting sink, with no separators or cross-node interference; a
Literal head followed by further nodes is rejected instead.
-/
theorem hiccup_seq_concat_amended :
    (∀ w : String, hiccup w [] = some w) ∧
    ∀ (w tag : String) (oattrs : Option (List (String × String)))
      (ochildren : Option (List Node)) (rest : List Node),
      hiccup w (Node.elem tag oattrs ochildren :: rest) =
        (hiccup w [Node.elem tag oattrs ochildren]).bind (fun w1 => hiccup w1 rest) := by
  refine ⟨fun w => by simp [hiccup], fun w tag oattrs ochildren rest => ?_⟩
  cases oattrs with
  | some attrs =>
    cases ochildren with
    | some ch =>
      cases h : hiccup (w ++ "<" ++ tag ++ attrsStr attrs ++ ">") ch <;>
        simp [hiccup, h]
    | none => simp [hiccup]
  | none =>
    cases ochildren with
    | some ch =>
      cases h : hiccup (w ++ "<" ++ tag ++ ">") ch <;> simp [hiccup, h]
    | none => simp [hiccup]

/--
C6: the engine only appends: for every sequence and every prior sink
content, the result is the prior content followed by the rendering of
the sequence with an empty sink, so prior content is never truncated,
overwritten or read, and repeated invocations accumulate in call order.
-/
theorem hiccup_append_only (nodes : List Node) (w : String) :
    hiccup w nodes = (hiccup "" nodes).map (fun out => w ++ out) :=
  hiccup_frame nodes w

/--
C7 counterexample: a sequence of two copies of the literal x is
rejected (no macro arm matches a literal followed by further nodes)
rather than rendering to the repeated text, while a single literal
renders verbatim.
-/
theorem hiccup_literal_counterexample :
    hiccup "" (List.replicate 2 (Node.lit "x")) = none ∧
    hiccup "" (List.replicate 2 (Node.lit "x")) ≠ some "xx" ∧
    hiccup "" [Node.lit "x"] = some "x" :=
  ⟨by simp [hiccup, List.replicate], by simp [hiccup, List.replicate], by simp [hiccup]⟩

/--
C7 amended: a sole literal is rendered verbatim with no escaping, and
the n-fold repetition of a literal renders to the n-fold repetition of
its text exactly when n is at most one; for n of two or more the
sequence matches no macro arm and is rejected.
-/
theorem hiccup_literal_amended (s : String) (n : Nat) :
    hiccup "" (List.replicate n (Node.lit s)) =
      if n ≤ 1 then some (String.join (List.replicate n s)) else none := by
  match n with
  | 0 => simp [hiccup, List.replicate, String.join]
  | 1 => simp [hiccup, List.replicate, String.join, String.empty_append]
  | (k + 2) =>
    have hk : ¬ (k + 2 ≤ 1) := by omega
    simp [hiccup, List.replicate, hk]

/--
C8 counterexample: the br element with neither an attribute block nor a
children block matches no macro arm, so it renders to nothing rather
than to a self-closing tag.
-/
theorem hiccup_bare_br_counterexample :
    hiccup "" [Node.elem "br" none none] = none ∧
    hiccup "" [Node.elem "br" none none] ≠ some "<br/>" :=
  ⟨by simp [hiccup], by simp [hiccup]⟩

/--
C8 amended: the br element with an explicitly empty attribute block and
no children block renders to exactly the self-closing br tag; the bare
form with neither block is rejected by the macro.
-/
theorem hiccup_bare_br_amended :
    hiccup "" [Node.elem "br" (some []) none] = some "<br/>" ∧
    hiccup "" [Node.elem "br" none none] = none :=
  ⟨by simp [hiccup, attrsStr, String.join], by simp [hiccup]⟩

/--
C9: on every sequence the macro grammar accepts, rendering never fails:
it produces some output, its only effect is appending that output to
the sink, and it is deterministic, the appended output being a function
of the tree alone.
-/
theorem hiccup_total_on_wf (nodes : List Node) (w : String) (h : wfSeq nodes = true) :
    ∃ out, hiccup w nodes = some (w ++ out) ∧ hiccup "" nodes = some out := by
  obtain ⟨toks, ht⟩ := Option.isSome_iff_exists.mp (wfSeq_renderToks_isSome nodes h)
  refine ⟨joinToks toks, ?_, ?_⟩
  · rw [hiccup_eq_toks nodes w, ht]
    simp
  · rw [hiccup_eq_toks nodes "", ht]
    simp [String.empty_append]

/--
C9 witness: a paragraph element with a literal child, rendered onto a
nonempty sink.
-/
theorem hiccup_total_on_wf_witness :
    ∃ out, hiccup "pre" [Node.elem "p" none (some [Node.lit "hi"])] = some ("pre" ++ out) ∧
      hiccup "" [Node.elem "p" none (some [Node.lit "hi"])] = some out :=
  hiccup_total_on_wf [Node.elem "p" none (some [Node.lit "hi"])] "pre" (by simp [wfSeq])

/--
C10: an element with an explicitly empty attribute block renders with
no space after the tag name: with children it coincides with the same
element declared without an attribute block and produces the plain open
tag, children and close tag; without children it produces exactly the
self-closing tag.
-/
theorem hiccup_empty_attrs (tag w : String) :
    (∀ ch : List Node, hiccup w [Node.elem tag (some []) (some ch)] =
      hiccup w [Node.elem tag none (some ch)]) ∧
    (∀ (ch : List Node) (c : String), hiccup "" ch = some c →
      hiccup w [Node.elem tag (some []) (some ch)] =
        some (w ++ "<" ++ tag ++ ">" ++ c ++ "</" ++ tag ++ ">")) ∧
    hiccup w [Node.elem tag (some []) none] = some (w ++ "<" ++ tag ++ "/>") := by
  refine ⟨fun ch => ?_, fun ch c h => ?_, ?_⟩
  · simp [hiccup, attrsStr, String.join, String.append_empty]
  · have h2 := hiccup_frame ch (w ++ "<" ++ tag ++ attrsStr [] ++ ">")
    rw [h] at h2
    simp only [hiccup, h2, Option.map_some', bind, Option.bind, Option.some_inj]
    simp [attrsStr, String.join, String.append_empty, String.append_assoc]
  · simp [hiccup, attrsStr, String.join, String.append_empty]

/--
C10 witness: the div element with an empty attribute block and a
literal child.
-/
theorem hiccup_empty_attrs_witness :
    hiccup "" [Node.elem "div" (some []) (some [Node.lit "hi"])] =
      some ("" ++ "<" ++ "div" ++ ">" ++ "hi" ++ "</" ++ "div" ++ ">") :=
  (hiccup_empty_attrs "div" "").2.1 [Node.lit "hi"] "hi" (by simp [hiccup])
